import Mathlib

/-!
# Shallow embedding of the video-gallery controller (`script.js` / `part_000`)

The repository is a single immediately-invoked script driving a static
video-gallery page: participant chips, card expand/collapse with a lazily
created embedded player, and filtering of cards by a selected participant.

This file embeds the script's data model and operations in Lean:

* DOM state is explicit: each `.video-card` element becomes a `Card` record
  holding exactly the attributes/classes the script reads and writes
  (`data-participants`, `data-video-id`, `aria-expanded` on the thumbnail
  button, `hidden` on the embed container and on the card itself,
  `data-expanded`, the iframes inside the player container, the chip
  elements, and the chip expand button).  The page-level state
  (`GalleryState`) holds the card list, the `.empty-state` element's
  `hidden` flag and the filter control's current value.
* `card.dataset.participants` may be `undefined` when the attribute is
  absent, and the script dereferences it without a guard, throwing an
  uncaught `TypeError`.  We model the attribute as `Option String` and every
  operation that dereferences it returns `Option _`, where `none` models the
  unhandled fault (there is no fallback value and no structured error).
* JS `NodeList.forEach` loops that mutate the live DOM become folds over
  indices into the evolving card list; element identity (`otherCard !==
  card`) becomes index inequality (the node list holds distinct elements).
* Asynchronous side effects with no bearing on state reachable by the
  claims — the 100ms deferred `scrollIntoView` and the iframe `load` event
  that clears the `video-card__player--loading` class — are not modelled;
  the synchronous part of `loadYouTubeEmbed` (adding the loading class and
  appending the iframe) is.
-/

namespace Gallery

/-! ## Locale-aware comparison

`collectParticipants` sorts with
`a.localeCompare(b, 'es', { sensitivity: 'base' })`.  Base sensitivity means
strings that differ only in case or in diacritics compare equal.  We model
the ICU `es` base collation on the Latin repertoire the page uses: each
character is folded to its base lowercase letter and mapped to a numeric
collation weight; `ñ` is a distinct letter ordered between `n` and `o`;
characters outside the folded `a`–`z`/`ñ` range keep their code point as
weight (below the letters).  Strings compare by the lexicographic order of
their weight sequences, and compare equal when the weight sequences agree
(that is the case-insensitive collapse of base sensitivity). -/

/-- Fold a character to its base form: lowercase, accents stripped
(Spanish base-sensitivity collation). -/
def esBaseFold (c : Char) : Char :=
  let lc := c.toLower
  if lc = 'á' then 'a'
  else if lc = 'é' then 'e'
  else if lc = 'í' then 'i'
  else if lc = 'ó' then 'o'
  else if lc = 'ú' ∨ lc = 'ü' then 'u'
  else lc

/-- Collation weight of a character under the modelled `es` base collation:
letters `a`–`z` get evenly spaced weights above all other characters and
`ñ` sits strictly between `n` and `o`. -/
def esBaseWeight (c : Char) : Nat :=
  let f := esBaseFold c
  if 'a' ≤ f ∧ f ≤ 'z' then 4096 + 16 * (f.toNat - 'a'.toNat)
  else if f = 'ñ' then 4096 + 16 * 13 + 8
  else f.toNat

/-- The collation key of a string: the weight of each character in order. -/
def localeKey (s : String) : List Nat :=
  s.data.map esBaseWeight

/-- Lexicographic comparison of weight sequences. -/
def lexCmp : List Nat → List Nat → Ordering
  | [], [] => Ordering.eq
  | [], _ :: _ => Ordering.lt
  | _ :: _, [] => Ordering.gt
  | a :: as, b :: bs =>
    if a < b then Ordering.lt
    else if b < a then Ordering.gt
    else lexCmp as bs

/-- Model of `a.localeCompare(b, 'es', { sensitivity: 'base' })`, as an
`Ordering` (`lt`/`eq`/`gt` for the negative/zero/positive JS result). -/
def localeCompareEs (a b : String) : Ordering :=
  lexCmp (localeKey a) (localeKey b)

/-- The boolean "not greater" relation induced by the comparator; JS
`Array.prototype.sort(cmp)` produces a stable ascending order with respect
to it. -/
def localeLe (a b : String) : Bool :=
  !(localeCompareEs a b == Ordering.gt)

/-! ## DOM state -/

/-- One `span.chip` element under a card's chip container: its text content
and the presence of the `chip--hidden` / `chip--visible` /
`chip--highlighted` classes. -/
structure Chip where
  text : String
  hiddenCls : Bool
  visibleCls : Bool
  highlightedCls : Bool
  deriving DecidableEq, Repr

/-- The `button.chip--expand` element appended by `generateChips` when a
card has more participants than the visible cap: its `aria-expanded`
attribute, text content and `title` tooltip. -/
structure ExpandBtn where
  ariaExpanded : Bool
  label : String
  title : String
  deriving DecidableEq, Repr

/-- An `iframe` element inside a card's player container, as configured by
`loadYouTubeEmbed` (only the `src` and accessible `title` vary; the other
attributes are constants). -/
structure Iframe where
  src : String
  title : String
  deriving DecidableEq, Repr

/-- A `.video-card` element: every attribute and class the script reads or
writes.  `participantsAttr`/`videoId` are `none` when the corresponding
`data-` attribute is absent from the markup (`dataset` yields `undefined`).
`iframes` lists the iframes currently inside the player container in DOM
order (`querySelector('iframe')` returns the head, `appendChild` appends).
-/
structure Card where
  participantsAttr : Option String
  videoId : Option String
  title : String
  ariaExpanded : Bool
  embedHidden : Bool
  dataExpanded : Bool
  iframes : List Iframe
  playerLoading : Bool
  hidden : Bool
  chips : List Chip
  expandBtn : Option ExpandBtn
  deriving DecidableEq, Repr

/-- Page-level state: the card list (in document order), the `hidden` flag
of the shared `.empty-state` placeholder, and the filter control's current
value. -/
structure GalleryState where
  cards : List Card
  emptyStateHidden : Bool
  filterValue : String
  deriving DecidableEq, Repr

/-- `const MAX_VISIBLE_CHIPS = 4` — chips shown before collapsing. -/
def MAX_VISIBLE_CHIPS : Nat := 4

/-- JS `String.prototype.split(',')` over the character list: split at every
comma, keeping empty pieces (`''.split(',')` is `['']`). -/
def splitCommaAux : List Char → List Char → List String
  | [], acc => [⟨acc.reverse⟩]
  | c :: rest, acc =>
    if c = ',' then ⟨acc.reverse⟩ :: splitCommaAux rest []
    else splitCommaAux rest (c :: acc)

/-- JS `str.split(',')`. -/
def splitComma (s : String) : List String :=
  splitCommaAux s.data []

/-- JS `String.prototype.trim`: strip leading and trailing whitespace. -/
def jsTrim (s : String) : String :=
  ⟨((s.data.dropWhile Char.isWhitespace).reverse.dropWhile
      Char.isWhitespace).reverse⟩

/-- `data-participants` split on commas with each entry trimmed — the
`card.dataset.participants.split(',').map(p => p.trim())` idiom used by
`generateChips`, `toggleChips` and `filterVideos`. -/
def splitTrim (s : String) : List String :=
  (splitComma s).map jsTrim

/-! ## `collectParticipants` -/

/-- `Set.prototype.add`: JS sets keep insertion order and deduplicate by
exact string equality. -/
def insertSet (l : List String) (s : String) : List String :=
  if s ∈ l then l else l ++ [s]

/-- The `videoCards.forEach` loop of `collectParticipants`: for each card,
split `data-participants` on commas and add each trimmed entry to the set.
`none` models the uncaught `TypeError` thrown when a card lacks the
attribute. -/
def collectSet : List Card → List String → Option (List String)
  | [], acc => some acc
  | c :: cs, acc =>
    match c.participantsAttr with
    | none => none
    | some attr =>
      collectSet cs ((splitComma attr).foldl (fun a p => insertSet a (jsTrim p)) acc)

/-- `collectParticipants()`: collect the set of trimmed participant names
over all cards, then sort the resulting array with
`sort((a, b) => a.localeCompare(b, 'es', { sensitivity: 'base' }))`.
`Array.prototype.sort` with a comparator is specified as a stable sort in
the ascending order of the comparator; it is modelled by the stable
insertion sort (any two stable sorts for the same total preorder agree). -/
def collectParticipants (cards : List Card) : Option (List String) :=
  (collectSet cards []).map
    (fun set => set.insertionSort (fun a b => localeLe a b = true))

/-! ## Chip generation and toggling -/

/-- `generateChips(card)`: clear the chip container, create one chip per
trimmed participant in listed order (`chip--hidden` from index
`MAX_VISIBLE_CHIPS` on), and append an expand button labeled with the
hidden count when the total exceeds the cap.  The label/tooltip strings
reproduce the source literals byte for byte (the source file contains the
mis-encoded `m치s` where `más` was evidently intended). -/
def generateChips (card : Card) : Option Card :=
  match card.participantsAttr with
  | none => none
  | some attr =>
    let participants := splitTrim attr
    let totalCount := participants.length
    let chips := participants.enum.map (fun p =>
      { text := p.2, hiddenCls := decide (p.1 ≥ MAX_VISIBLE_CHIPS),
        visibleCls := false, highlightedCls := false : Chip })
    let expandBtn : Option ExpandBtn :=
      if totalCount > MAX_VISIBLE_CHIPS then
        let hiddenCount : Int := (totalCount : Int) - (MAX_VISIBLE_CHIPS : Int)
        some { ariaExpanded := false,
               label := "+" ++ toString hiddenCount ++ " m치s",
               title := "Ver " ++ toString hiddenCount ++ " participantes m치s" }
      else none
    some { card with chips := chips, expandBtn := expandBtn }

/-- `toggleChips(card, expandBtn)`: flip the expand button between the
"show N more" and "show less" states and toggle the classes of every
non-expand chip from index `MAX_VISIBLE_CHIPS` on (`allChips.slice(4)`).
The hidden count is recomputed from the card's current `data-participants`
at every call.  The handler exists only when `generateChips` appended an
expand button; `none` models a call with no button or a missing attribute.
-/
def toggleChips (card : Card) : Option Card :=
  match card.expandBtn, card.participantsAttr with
  | some btn, some attr =>
    let participants := splitTrim attr
    let hiddenCount : Int := (participants.length : Int) - (MAX_VISIBLE_CHIPS : Int)
    if btn.ariaExpanded then
      some { card with
        expandBtn := some { ariaExpanded := false,
                            label := "+" ++ toString hiddenCount ++ " m치s",
                            title := "Ver " ++ toString hiddenCount ++ " participantes m치s" },
        chips := card.chips.enum.map (fun p =>
          if p.1 ≥ MAX_VISIBLE_CHIPS then
            { p.2 with visibleCls := false, hiddenCls := true }
          else p.2) }
    else
      some { card with
        expandBtn := some { ariaExpanded := true,
                            label := "Ver menos",
                            title := "Ocultar participantes" },
        chips := card.chips.enum.map (fun p =>
          if p.1 ≥ MAX_VISIBLE_CHIPS then
            { p.2 with hiddenCls := false, visibleCls := true }
          else p.2) }
  | _, _ => none

/-! ## Card expansion and the embed -/

/-- The collapse branch of `toggleVideoCard` (also inlined verbatim for
"other" cards before expanding): clear `aria-expanded`, hide the embed
container, remove `data-expanded`, and remove the first iframe of the
player container if one exists. -/
def collapseCard (c : Card) : Card :=
  { c with ariaExpanded := false, embedHidden := true, dataExpanded := false,
           iframes := c.iframes.tail }

/-- `loadYouTubeEmbed(card)`: add the `--loading` class to the player
container and append a freshly configured iframe.  A missing
`data-video-id` interpolates as the string `"undefined"` in the URL
template (JS `undefined` in a template literal); it does not throw.  The
asynchronous `load` listener that later removes the loading class is not
modelled. -/
def loadYouTubeEmbed (card : Card) : Card :=
  let videoId := card.videoId.getD "undefined"
  let iframe : Iframe :=
    { src := "https://www.youtube-nocookie.com/embed/" ++ videoId ++
        "?rel=0&modestbranding=1&autoplay=1&enablejsapi=0",
      title := card.title }
  { card with playerLoading := true, iframes := card.iframes ++ [iframe] }

/-- The expand branch applied to the clicked card itself: set
`aria-expanded`, reveal the embed container, set `data-expanded`, and load
the embed.  (The deferred `scrollIntoView` does not touch modelled state.)
-/
def expandCard (card : Card) : Card :=
  loadYouTubeEmbed { card with ariaExpanded := true, embedHidden := false,
                               dataExpanded := true }

/-- The `videoCards.forEach(otherCard => ...)` loop run before expanding:
every card other than the one at index `i` that is currently expanded gets
the collapse side effects; `j` is the index of the head of the remaining
list. -/
def collapseOthers (i : Nat) : Nat → List Card → List Card
  | _, [] => []
  | j, d :: rest =>
    (if j ≠ i ∧ d.ariaExpanded then collapseCard d else d) ::
      collapseOthers i (j + 1) rest

/-- `toggleVideoCard(card)` for the card at index `i`: if its thumbnail
button has `aria-expanded="true"`, collapse it; otherwise collapse every
other expanded card first and then expand it.  (The index is always in
range when invoked from the real handlers; out of range leaves the state
unchanged.) -/
def toggleVideoCard (cards : List Card) (i : Nat) : List Card :=
  match cards[i]? with
  | none => cards
  | some c =>
    if c.ariaExpanded then cards.set i (collapseCard c)
    else (collapseOthers i 0 cards).set i (expandCard c)

/-! ## Filtering -/

/-- The chip update of `filterVideos`' visible branch: `chip--highlighted`
is added when a participant is selected and the chip's trimmed text equals
it exactly, removed otherwise. -/
def filterChip (sel : String) (ch : Chip) : Chip :=
  if sel ≠ "" ∧ jsTrim ch.text = sel then { ch with highlightedCls := true }
  else { ch with highlightedCls := false }

/-- One iteration of the `videoCards.forEach` loop in `filterVideos`,
acting on the card at index `i` of the evolving card list and threading
`visibleCount` as `cnt`.  `none` models the uncaught `TypeError` on a card
without `data-participants`. -/
def filterStep (sel : String) (cards : List Card) (cnt : Nat) (i : Nat) :
    Option (List Card × Nat) :=
  match cards[i]? with
  | none => some (cards, cnt)
  | some c =>
    match c.participantsAttr with
    | none => none
    | some attr =>
      let participants := splitTrim attr
      if sel = "" ∨ sel ∈ participants then
        some (cards.set i { c with hidden := false,
                                   chips := c.chips.map (filterChip sel) },
              cnt + 1)
      else
        let cards1 := cards.set i { c with hidden := true }
        some (if c.ariaExpanded then toggleVideoCard cards1 i else cards1, cnt)

/-- The whole `forEach` of `filterVideos`, iterating the given indices in
order. -/
def filterLoop (sel : String) : List Nat → List Card → Nat →
    Option (List Card × Nat)
  | [], cards, cnt => some (cards, cnt)
  | i :: rest, cards, cnt =>
    match filterStep sel cards cnt i with
    | none => none
    | some acc => filterLoop sel rest acc.1 acc.2

/-- `filterVideos(selectedParticipant)`: recompute each card's visibility
(visible iff the selection is empty or the trimmed participant list
contains it exactly), update chip highlights on visible cards, collapse a
card that is hidden while expanded, and finally show the `.empty-state`
placeholder iff no card is visible. -/
def filterVideos (sel : String) (g : GalleryState) : Option GalleryState :=
  (filterLoop sel (List.range g.cards.length) g.cards 0).map (fun r =>
    { cards := r.1,
      emptyStateHidden := if r.2 = 0 then false else true,
      filterValue := g.filterValue })

/-- `resetFilter()`: clear the filter control's value, then
`filterVideos('')`. -/
def resetFilter (g : GalleryState) : Option GalleryState :=
  filterVideos "" { g with filterValue := "" }

/-! ## Escape handler -/

/-- The body of the global `keydown` handler for Escape: for each card in
order, if its thumbnail button is currently expanded, run
`toggleVideoCard` on it. -/
def escapeLoop : List Nat → List Card → List Card
  | [], cs => cs
  | i :: rest, cs =>
    escapeLoop rest
      (match cs[i]? with
       | none => cs
       | some c => if c.ariaExpanded then toggleVideoCard cs i else cs)

/-- The Escape `keydown` handler over the whole card list. -/
def escapeKeydown (cards : List Card) : List Card :=
  escapeLoop (List.range cards.length) cards

/-! ## Initialization and reachable states

Per the markup contract (spec §3/§6), cards start collapsed and visible,
with no iframe in the player container, the expansion marker absent, the
embed container hidden, and the filter control on its empty "show all"
value; `init()` (the `part_000` variant) then runs `generateChips` on
every card. -/

/-- The static attributes of one card in the initial markup. -/
structure CardSpec where
  participantsAttr : Option String
  videoId : Option String
  title : String
  deriving DecidableEq, Repr

/-- A card as it stands in the static markup, before `init()`. -/
def initCard (s : CardSpec) : Card :=
  { participantsAttr := s.participantsAttr, videoId := s.videoId,
    title := s.title, ariaExpanded := false, embedHidden := true,
    dataExpanded := false, iframes := [], playerLoading := false,
    hidden := false, chips := [], expandBtn := none }

/-- `videoCards.forEach(card => generateChips(card))`. -/
def genAll : List Card → Option (List Card)
  | [] => some []
  | c :: cs =>
    match generateChips c, genAll cs with
    | some c', some cs' => some (c' :: cs')
    | _, _ => none

/-- The page state right after `init()` ran on the given markup
(`es` is the initial `hidden` flag of the `.empty-state` element). -/
def initState (specs : List CardSpec) (es : Bool) : Option GalleryState :=
  (genAll (specs.map initCard)).map (fun cards =>
    { cards := cards, emptyStateHidden := es, filterValue := "" })

/-- One user interaction, as wired by the event listeners: activating a
card's thumbnail (click or Enter/Space), changing the filter control to a
value `sel` (which sets the control's value and fires `filterVideos(sel)`),
clicking the reset button, pressing Escape, or activating a card's chip
expand button. -/
inductive UserStep : GalleryState → GalleryState → Prop
  | card_toggle (g : GalleryState) (i : Nat) :
      UserStep g { g with cards := toggleVideoCard g.cards i }
  | filter_change (g g' : GalleryState) (sel : String)
      (h : filterVideos sel { g with filterValue := sel } = some g') :
      UserStep g g'
  | filter_reset (g g' : GalleryState) (h : resetFilter g = some g') :
      UserStep g g'
  | escape (g : GalleryState) :
      UserStep g { g with cards := escapeKeydown g.cards }
  | chips_toggle (g : GalleryState) (i : Nat) (c c' : Card)
      (hc : g.cards[i]? = some c) (ht : toggleChips c = some c') :
      UserStep g { g with cards := g.cards.set i c' }

/-- States reachable from some successfully initialized page by user
interaction and filtering. -/
inductive Reachable : GalleryState → Prop
  | init (specs : List CardSpec) (es : Bool) (g : GalleryState)
      (h : initState specs es = some g) : Reachable g
  | step (g g' : GalleryState) (hg : Reachable g) (hs : UserStep g g') :
      Reachable g'

/-! ## Lemmas about the collation order -/

theorem lexCmp_nil_not_gt (b : List Nat) : lexCmp [] b ≠ Ordering.gt := by
  cases b <;> simp [lexCmp]

theorem lexCmp_cons_nil_gt (x : Nat) (xs : List Nat) :
    lexCmp (x :: xs) [] = Ordering.gt := rfl

theorem lexCmp_cons_not_gt {x y : Nat} {xs ys : List Nat}
    (h : lexCmp (x :: xs) (y :: ys) ≠ Ordering.gt) :
    x < y ∨ (x = y ∧ lexCmp xs ys ≠ Ordering.gt) := by
  by_cases hxy : x < y
  · exact Or.inl hxy
  · by_cases hyx : y < x
    · exact absurd (by simp [lexCmp, hxy, hyx]) h
    · refine Or.inr ⟨Nat.le_antisymm (Nat.not_lt.mp hyx) (Nat.not_lt.mp hxy), ?_⟩
      intro hgt
      exact h (by simp [lexCmp, hxy, hyx, hgt])

theorem lexCmp_cons_of_lt {x y : Nat} (xs ys : List Nat) (h : x < y) :
    lexCmp (x :: xs) (y :: ys) = Ordering.lt := by
  simp [lexCmp, h]

theorem lexCmp_cons_of_eq {x : Nat} (xs ys : List Nat) :
    lexCmp (x :: xs) (x :: ys) = lexCmp xs ys := by
  simp [lexCmp]

theorem lexCmp_not_gt_trans :
    ∀ (a b c : List Nat), lexCmp a b ≠ Ordering.gt → lexCmp b c ≠ Ordering.gt →
      lexCmp a c ≠ Ordering.gt := by
  intro a
  induction a with
  | nil => intro b c _ _; exact lexCmp_nil_not_gt c
  | cons x xs ih =>
    intro b c h1 h2
    cases b with
    | nil => exact absurd (lexCmp_cons_nil_gt x xs) h1
    | cons y ys =>
      cases c with
      | nil => exact absurd (lexCmp_cons_nil_gt y ys) h2
      | cons z zs =>
        rcases lexCmp_cons_not_gt h1 with hxy | ⟨hxy, hrec1⟩ <;>
          rcases lexCmp_cons_not_gt h2 with hyz | ⟨hyz, hrec2⟩
        · rw [lexCmp_cons_of_lt xs zs (Nat.lt_trans hxy hyz)]; simp
        · subst hyz; rw [lexCmp_cons_of_lt xs zs hxy]; simp
        · subst hxy; rw [lexCmp_cons_of_lt xs zs hyz]; simp
        · subst hxy; subst hyz
          rw [lexCmp_cons_of_eq xs zs]
          exact ih ys zs hrec1 hrec2

theorem lexCmp_not_gt_total :
    ∀ (a b : List Nat), lexCmp a b ≠ Ordering.gt ∨ lexCmp b a ≠ Ordering.gt := by
  intro a
  induction a with
  | nil => intro b; exact Or.inl (lexCmp_nil_not_gt b)
  | cons x xs ih =>
    intro b
    cases b with
    | nil => exact Or.inr (lexCmp_nil_not_gt (x :: xs))
    | cons y ys =>
      rcases Nat.lt_trichotomy x y with hlt | heq | hgt
      · left; rw [lexCmp_cons_of_lt xs ys hlt]; simp
      · subst heq
        rw [lexCmp_cons_of_eq xs ys, lexCmp_cons_of_eq ys xs]
        exact ih ys
      · right; rw [lexCmp_cons_of_lt ys xs hgt]; simp

theorem localeLe_eq_true_iff (a b : String) :
    localeLe a b = true ↔ localeCompareEs a b ≠ Ordering.gt := by
  unfold localeLe
  cases h : localeCompareEs a b <;> decide

theorem localeLe_trans (a b c : String) :
    localeLe a b → localeLe b c → localeLe a c := by
  intro h1 h2
  rw [localeLe_eq_true_iff] at *
  exact lexCmp_not_gt_trans _ _ _ h1 h2

theorem localeLe_total (a b : String) : localeLe a b || localeLe b a := by
  rcases lexCmp_not_gt_total (localeKey a) (localeKey b) with h | h
  · have hh : localeLe a b = true := (localeLe_eq_true_iff a b).mpr h
    simp [hh]
  · have hh : localeLe b a = true := (localeLe_eq_true_iff b a).mpr h
    simp [hh]

/-! ## Lemmas about the participant set collection -/

theorem mem_insertSet {l : List String} {s x : String} :
    x ∈ insertSet l s ↔ x ∈ l ∨ x = s := by
  unfold insertSet
  split
  · rename_i hs
    constructor
    · exact Or.inl
    · rintro (hx | rfl)
      · exact hx
      · exact hs
  · simp

theorem nodup_insertSet {l : List String} (s : String) (h : l.Nodup) :
    (insertSet l s).Nodup := by
  unfold insertSet
  split
  · exact h
  · rename_i hs
    simpa [List.nodup_append] using ⟨h, fun hmem => hs hmem⟩

theorem mem_foldl_insertSet (ps : List String) :
    ∀ (acc : List String) (x : String),
      x ∈ ps.foldl (fun a p => insertSet a (jsTrim p)) acc ↔
        x ∈ acc ∨ ∃ p ∈ ps, jsTrim p = x := by
  induction ps with
  | nil => intro acc x; simp
  | cons p ps ih =>
    intro acc x
    rw [List.foldl_cons, ih]
    constructor
    · rintro (hacc | ⟨q, hq, rfl⟩)
      · rcases mem_insertSet.mp hacc with hacc | rfl
        · exact Or.inl hacc
        · exact Or.inr ⟨p, by simp⟩
      · exact Or.inr ⟨q, by simp [hq]⟩
    · rintro (hacc | ⟨q, hq, rfl⟩)
      · exact Or.inl (mem_insertSet.mpr (Or.inl hacc))
      · rcases List.mem_cons.mp hq with rfl | hq
        · exact Or.inl (mem_insertSet.mpr (Or.inr rfl))
        · exact Or.inr ⟨q, hq, rfl⟩

theorem nodup_foldl_insertSet (ps : List String) :
    ∀ (acc : List String), acc.Nodup →
      (ps.foldl (fun a p => insertSet a (jsTrim p)) acc).Nodup := by
  induction ps with
  | nil => intro acc h; simpa using h
  | cons p ps ih =>
    intro acc h
    rw [List.foldl_cons]
    exact ih _ (nodup_insertSet _ h)

theorem collectSet_none_of_missing :
    ∀ (cards : List Card) (acc : List String),
      (∃ c ∈ cards, c.participantsAttr = none) → collectSet cards acc = none := by
  intro cards
  induction cards with
  | nil => intro acc h; simp at h
  | cons c cs ih =>
    intro acc h
    rcases h with ⟨d, hd, hattr⟩
    rcases List.mem_cons.mp hd with rfl | hd
    · simp [collectSet, hattr]
    · unfold collectSet
      cases hc : c.participantsAttr with
      | none => rfl
      | some attr => exact ih _ ⟨d, hd, hattr⟩

theorem collectSet_mem :
    ∀ (cards : List Card) (acc l : List String),
      collectSet cards acc = some l →
      ∀ x, x ∈ l ↔ x ∈ acc ∨
        ∃ c ∈ cards, ∃ attr, c.participantsAttr = some attr ∧
          ∃ p ∈ splitComma attr, jsTrim p = x := by
  intro cards
  induction cards with
  | nil =>
    intro acc l h x
    simp only [collectSet, Option.some.injEq] at h
    subst h
    simp
  | cons c cs ih =>
    intro acc l h x
    unfold collectSet at h
    cases hc : c.participantsAttr with
    | none => rw [hc] at h; exact absurd h (by simp)
    | some attr =>
      rw [hc] at h
      rw [ih _ _ h x, mem_foldl_insertSet]
      constructor
      · rintro ((hacc | ⟨p, hp, rfl⟩) | ⟨d, hd, attr', hattr', hp⟩)
        · exact Or.inl hacc
        · exact Or.inr ⟨c, by simp, attr, hc, p, hp, rfl⟩
        · exact Or.inr ⟨d, by simp [hd], attr', hattr', hp⟩
      · rintro (hacc | ⟨d, hd, attr', hattr', p, hp, rfl⟩)
        · exact Or.inl (Or.inl hacc)
        · rcases List.mem_cons.mp hd with rfl | hd
          · rw [hc] at hattr'
            cases hattr'
            exact Or.inl (Or.inr ⟨p, hp, rfl⟩)
          · exact Or.inr ⟨d, hd, attr', hattr', p, hp, rfl⟩

theorem collectSet_nodup :
    ∀ (cards : List Card) (acc l : List String),
      acc.Nodup → collectSet cards acc = some l → l.Nodup := by
  intro cards
  induction cards with
  | nil =>
    intro acc l h heq
    simp only [collectSet, Option.some.injEq] at heq
    subst heq
    exact h
  | cons c cs ih =>
    intro acc l h heq
    unfold collectSet at heq
    cases hc : c.participantsAttr with
    | none => rw [hc] at heq; exact absurd heq (by simp)
    | some attr =>
      rw [hc] at heq
      exact ih _ _ (nodup_foldl_insertSet _ _ h) heq

/-! ## Positional list lemmas -/

theorem getElem?_append_cons_self {α : Type _} (pre : List α) (c : α) (post : List α) :
    (pre ++ c :: post)[pre.length]? = some c := by
  rw [List.getElem?_append_right (Nat.le_refl _)]
  simp

theorem set_append_cons_self {α : Type _} (pre : List α) (c x : α) (post : List α) :
    (pre ++ c :: post).set pre.length x = pre ++ x :: post := by
  rw [List.set_append_right _ _ (Nat.le_refl _)]
  simp

theorem length_collapseOthers (i : Nat) :
    ∀ (k : Nat) (l : List Card), (collapseOthers i k l).length = l.length := by
  intro k l
  induction l generalizing k with
  | nil => rfl
  | cons d rest ih => simp [collapseOthers, ih]

theorem getElem?_collapseOthers (i : Nat) :
    ∀ (l : List Card) (k m : Nat),
      (collapseOthers i k l)[m]? =
        (l[m]?).map (fun d =>
          if k + m ≠ i ∧ d.ariaExpanded then collapseCard d else d) := by
  intro l
  induction l with
  | nil => intro k m; simp [collapseOthers]
  | cons d rest ih =>
    intro k m
    cases m with
    | zero => simp [collapseOthers]
    | succ m =>
      simp only [collapseOthers, List.getElem?_cons_succ, ih (k + 1) m]
      have : k + 1 + m = k + (m + 1) := by omega
      rw [this]

/-! ## Characterizations of `toggleVideoCard` -/

theorem toggleVideoCard_of_expanded {cards : List Card} {i : Nat} {c : Card}
    (h : cards[i]? = some c) (he : c.ariaExpanded = true) :
    toggleVideoCard cards i = cards.set i (collapseCard c) := by
  unfold toggleVideoCard
  rw [h]
  simp [he]

theorem toggleVideoCard_of_collapsed {cards : List Card} {i : Nat} {c : Card}
    (h : cards[i]? = some c) (he : c.ariaExpanded = false) :
    toggleVideoCard cards i = (collapseOthers i 0 cards).set i (expandCard c) := by
  unfold toggleVideoCard
  rw [h]
  simp [he]

theorem toggleVideoCard_append_expanded (pre : List Card) (c : Card)
    (post : List Card) (he : c.ariaExpanded = true) :
    toggleVideoCard (pre ++ c :: post) pre.length =
      pre ++ collapseCard c :: post := by
  rw [toggleVideoCard_of_expanded (getElem?_append_cons_self pre c post) he,
    set_append_cons_self]

/-! ## The per-card form of `filterVideos` -/

/-- Whether a card passes the filter `sel`:
`!selectedParticipant || participants.includes(selectedParticipant)` (false
when the attribute is missing — the real loop throws there first). -/
def matchesB (sel : String) (c : Card) : Bool :=
  match c.participantsAttr with
  | none => false
  | some attr => decide (sel = "" ∨ sel ∈ splitTrim attr)

/-- What one `filterVideos` iteration does to the card it visits (derived
form; `filterVideos_eq` proves the loop equal to mapping this). -/
def processCard (sel : String) (c : Card) : Option Card :=
  match c.participantsAttr with
  | none => none
  | some attr =>
    if sel = "" ∨ sel ∈ splitTrim attr then
      some { c with hidden := false, chips := c.chips.map (filterChip sel) }
    else if c.ariaExpanded then
      some (collapseCard { c with hidden := true })
    else
      some { c with hidden := true }

/-- `processCard` applied to every card in order, failing like the loop
does at the first card without `data-participants`. -/
def processAll (sel : String) : List Card → Option (List Card)
  | [] => some []
  | c :: cs =>
    match processCard sel c, processAll sel cs with
    | some c', some cs' => some (c' :: cs')
    | _, _ => none

theorem filterLoop_cons_some {sel : String} {i : Nat} {rest : List Nat}
    {cards : List Card} {cnt : Nat} {cards' : List Card} {cnt' : Nat}
    (h : filterStep sel cards cnt i = some (cards', cnt')) :
    filterLoop sel (i :: rest) cards cnt = filterLoop sel rest cards' cnt' := by
  have hu : filterLoop sel (i :: rest) cards cnt =
      match filterStep sel cards cnt i with
      | none => none
      | some acc => filterLoop sel rest acc.1 acc.2 := rfl
  rw [hu, h]

theorem filterLoop_cons_none {sel : String} {i : Nat} {rest : List Nat}
    {cards : List Card} {cnt : Nat}
    (h : filterStep sel cards cnt i = none) :
    filterLoop sel (i :: rest) cards cnt = none := by
  have hu : filterLoop sel (i :: rest) cards cnt =
      match filterStep sel cards cnt i with
      | none => none
      | some acc => filterLoop sel rest acc.1 acc.2 := rfl
  rw [hu, h]

theorem processAll_cons_eq (sel : String) (c : Card) (cs : List Card)
    {c' : Card} (h : processCard sel c = some c') :
    processAll sel (c :: cs) = (processAll sel cs).map (fun cs' => c' :: cs') := by
  have hc : processAll sel (c :: cs) =
      match processCard sel c, processAll sel cs with
      | some c', some cs' => some (c' :: cs')
      | _, _ => none := rfl
  rw [hc, h]
  cases processAll sel cs <;> rfl

theorem filterLoop_go_step (sel : String) (cs : List Card)
    (ih : ∀ (pre : List Card) (cnt : Nat),
      filterLoop sel (List.range' pre.length cs.length) (pre ++ cs) cnt =
        (processAll sel cs).map
          (fun post' => (pre ++ post', cnt + cs.countP (matchesB sel))))
    (pre : List Card) (cnt : Nat) (c c' : Card) (k : Nat)
    (hproc : processCard sel c = some c')
    (hcntc : (if matchesB sel c then 1 else 0) = k)
    (hnext : filterStep sel (pre ++ c :: cs) cnt pre.length =
      some (pre ++ c' :: cs, cnt + k)) :
    filterLoop sel (List.range' pre.length (c :: cs).length) (pre ++ c :: cs) cnt =
      (processAll sel (c :: cs)).map
        (fun post' => (pre ++ post', cnt + (c :: cs).countP (matchesB sel))) := by
  rw [List.length_cons, List.range'_succ, filterLoop_cons_some hnext]
  have h2 := ih (pre ++ [c']) (cnt + k)
  simp only [List.length_append, List.length_singleton, List.append_assoc,
    List.singleton_append] at h2
  rw [h2, processAll_cons_eq sel c cs hproc]
  cases processAll sel cs with
  | none => rfl
  | some cs' =>
    simp only [Option.map_map, Option.map_some', Function.comp_apply,
      Option.some.injEq, Prod.mk.injEq, true_and, List.countP_cons]
    omega

theorem filterLoop_go (sel : String) :
    ∀ (post pre : List Card) (cnt : Nat),
      filterLoop sel (List.range' pre.length post.length) (pre ++ post) cnt =
        (processAll sel post).map
          (fun post' => (pre ++ post', cnt + post.countP (matchesB sel))) := by
  intro post
  induction post with
  | nil => intro pre cnt; simp [filterLoop, processAll]
  | cons c cs ih =>
    intro pre cnt
    have hg := getElem?_append_cons_self pre c cs
    cases hattr : c.participantsAttr with
    | none =>
      have hfs : filterStep sel (pre ++ c :: cs) cnt pre.length = none := by
        simp only [filterStep, hg, hattr]
      rw [List.length_cons, List.range'_succ, filterLoop_cons_none hfs,
        show processAll sel (c :: cs) = none by
          simp only [processAll, processCard, hattr]]
      rfl
    | some attr =>
      by_cases hm : sel = "" ∨ sel ∈ splitTrim attr
      · have hmm : matchesB sel c = true := by simp [matchesB, hattr, hm]
        refine filterLoop_go_step sel cs ih pre cnt c
          ({ c with hidden := false, chips := c.chips.map (filterChip sel) })
          1 ?_ (by simp [hmm]) ?_
        · simp only [processCard, hattr]
          rw [if_pos hm]
        · simp only [filterStep, hg, hattr]
          rw [if_pos hm, set_append_cons_self]
      · have hmm : matchesB sel c = false := by
          simp only [matchesB, hattr, decide_eq_false_iff_not]
          exact hm
        by_cases he : c.ariaExpanded
        · refine filterLoop_go_step sel cs ih pre cnt c
            (collapseCard { c with hidden := true }) 0 ?_ (by simp [hmm]) ?_
          · simp only [processCard, hattr]
            rw [if_neg hm, if_pos he]
          · simp only [filterStep, hg, hattr]
            rw [if_neg hm, set_append_cons_self, if_pos he,
              toggleVideoCard_append_expanded pre
                { c with participantsAttr := some attr, hidden := true } cs he]
            rfl
        · refine filterLoop_go_step sel cs ih pre cnt c
            ({ c with hidden := true }) 0 ?_ (by simp [hmm]) ?_
          · simp only [processCard, hattr]
            rw [if_neg hm, if_neg he]
          · simp only [filterStep, hg, hattr]
            rw [if_neg hm, set_append_cons_self, if_neg he]
            rfl

/-- The loop of `filterVideos` equals mapping `processCard` over the cards,
with `visibleCount` the number of cards passing the filter. -/
theorem filterVideos_eq (sel : String) (g : GalleryState) :
    filterVideos sel g =
      (processAll sel g.cards).map (fun cs =>
        { cards := cs,
          emptyStateHidden :=
            if g.cards.countP (matchesB sel) = 0 then false else true,
          filterValue := g.filterValue }) := by
  unfold filterVideos
  have h0 := filterLoop_go sel g.cards [] 0
  simp only [List.length_nil, List.nil_append, Nat.zero_add] at h0
  rw [List.range_eq_range', h0]
  cases processAll sel g.cards with
  | none => rfl
  | some cs => simp

/-! ## Facts about `processCard` and `processAll` -/

theorem processCard_cases {sel : String} {c c' : Card}
    (h : processCard sel c = some c') :
    c' = { c with hidden := false, chips := c.chips.map (filterChip sel) } ∨
    (c' = collapseCard { c with hidden := true } ∧ c.ariaExpanded = true) ∨
    (c' = { c with hidden := true } ∧ c.ariaExpanded = false) := by
  unfold processCard at h
  cases ha : c.participantsAttr with
  | none => simp only [ha] at h; exact Option.noConfusion h
  | some attr =>
    simp only [ha] at h
    by_cases hm : sel = "" ∨ sel ∈ splitTrim attr
    · rw [if_pos hm] at h
      cases h
      exact Or.inl rfl
    · rw [if_neg hm] at h
      by_cases he : c.ariaExpanded
      · rw [if_pos he] at h
        cases h
        exact Or.inr (Or.inl ⟨rfl, he⟩)
      · rw [if_neg he] at h
        cases h
        exact Or.inr (Or.inr ⟨rfl, by simpa using he⟩)

theorem processCard_attr_some {sel : String} {c c' : Card}
    (h : processCard sel c = some c') :
    ∃ attr, c.participantsAttr = some attr := by
  unfold processCard at h
  cases ha : c.participantsAttr with
  | none => simp only [ha] at h; exact Option.noConfusion h
  | some attr => exact ⟨attr, rfl⟩

theorem processCard_hidden_iff {sel : String} {c c' : Card} {attr : String}
    (ha : c.participantsAttr = some attr)
    (h : processCard sel c = some c') :
    c'.hidden = false ↔ (sel = "" ∨ sel ∈ splitTrim attr) := by
  unfold processCard at h
  simp only [ha] at h
  by_cases hm : sel = "" ∨ sel ∈ splitTrim attr
  · rw [if_pos hm] at h
    cases h
    simpa using hm
  · rw [if_neg hm] at h
    by_cases he : c.ariaExpanded
    · rw [if_pos he] at h
      cases h
      simpa [collapseCard] using hm
    · rw [if_neg he] at h
      cases h
      simpa using hm

theorem processCard_matchesB {sel : String} {c c' : Card}
    (h : processCard sel c = some c') :
    c'.hidden = false ↔ matchesB sel c = true := by
  obtain ⟨attr, ha⟩ := processCard_attr_some h
  rw [processCard_hidden_iff ha h]
  simp [matchesB, ha]

theorem processAll_length (sel : String) :
    ∀ (l l' : List Card), processAll sel l = some l' → l'.length = l.length := by
  intro l
  induction l with
  | nil =>
    intro l' h
    simp only [processAll, Option.some.injEq] at h
    subst h
    rfl
  | cons c cs ih =>
    intro l' h
    unfold processAll at h
    cases hpc : processCard sel c <;> rw [hpc] at h
    · exact absurd h (by simp)
    · cases hpa : processAll sel cs <;> rw [hpa] at h
      · exact absurd h (by simp)
      · rename_i c' cs'
        simp only [Option.some.injEq] at h
        subst h
        simp [ih _ hpa]

theorem processAll_getElem (sel : String) :
    ∀ (l l' : List Card), processAll sel l = some l' →
      ∀ (i : Nat) (c : Card), l[i]? = some c → l'[i]? = processCard sel c := by
  intro l
  induction l with
  | nil => intro l' h i c hc; simp at hc
  | cons d cs ih =>
    intro l' h i c hc
    unfold processAll at h
    cases hpc : processCard sel d <;> rw [hpc] at h
    · exact absurd h (by simp)
    · cases hpa : processAll sel cs <;> rw [hpa] at h
      · exact absurd h (by simp)
      · rename_i d' cs'
        simp only [Option.some.injEq] at h
        subst h
        cases i with
        | zero =>
          simp only [List.getElem?_cons_zero, Option.some.injEq] at hc
          subst hc
          simpa using hpc.symm
        | succ i =>
          simp only [List.getElem?_cons_succ] at hc ⊢
          exact ih _ hpa i c hc

theorem processAll_mem (sel : String) :
    ∀ (l l' : List Card), processAll sel l = some l' →
      ∀ c' ∈ l', ∃ c ∈ l, processCard sel c = some c' := by
  intro l
  induction l with
  | nil =>
    intro l' h c' hc'
    simp only [processAll, Option.some.injEq] at h
    subst h
    simp at hc'
  | cons d cs ih =>
    intro l' h c' hc'
    unfold processAll at h
    cases hpc : processCard sel d <;> rw [hpc] at h
    · exact absurd h (by simp)
    · cases hpa : processAll sel cs <;> rw [hpa] at h
      · exact absurd h (by simp)
      · rename_i d' cs'
        simp only [Option.some.injEq] at h
        subst h
        rcases List.mem_cons.mp hc' with rfl | hc'
        · exact ⟨d, by simp, hpc⟩
        · obtain ⟨c, hc, hcc⟩ := ih _ hpa c' hc'
          exact ⟨c, by simp [hc], hcc⟩

theorem processAll_none_of_missing (sel : String) :
    ∀ (l : List Card), (∃ c ∈ l, c.participantsAttr = none) →
      processAll sel l = none := by
  intro l
  induction l with
  | nil => intro h; simp at h
  | cons c cs ih =>
    intro h
    rcases h with ⟨d, hd, hattr⟩
    rcases List.mem_cons.mp hd with rfl | hd
    · have : processCard sel d = none := by simp [processCard, hattr]
      unfold processAll
      rw [this]
    · have : processAll sel cs = none := ih ⟨d, hd, hattr⟩
      unfold processAll
      rw [this]
      cases processCard sel c <;> rfl

/-! ## The map form of the Escape handler -/

theorem escapeLoop_cons_eq (cs' : List Card) {i : Nat} {rest : List Nat}
    {cs : List Card}
    (h : (match cs[i]? with
          | none => cs
          | some d => if d.ariaExpanded then toggleVideoCard cs i else cs) = cs') :
    escapeLoop (i :: rest) cs = escapeLoop rest cs' := by
  have hu : escapeLoop (i :: rest) cs =
      escapeLoop rest
        (match cs[i]? with
         | none => cs
         | some d => if d.ariaExpanded then toggleVideoCard cs i else cs) := rfl
  rw [hu, h]

theorem escapeLoop_go :
    ∀ (post pre : List Card),
      escapeLoop (List.range' pre.length post.length) (pre ++ post) =
        pre ++ post.map (fun c => if c.ariaExpanded then collapseCard c else c) := by
  intro post
  induction post with
  | nil => intro pre; simp [escapeLoop]
  | cons c cs ih =>
    intro pre
    have hg := getElem?_append_cons_self pre c cs
    rw [List.length_cons, List.range'_succ]
    by_cases he : c.ariaExpanded
    · rw [escapeLoop_cons_eq (pre ++ collapseCard c :: cs)
        (by simp only [hg]
            rw [if_pos he]
            exact toggleVideoCard_append_expanded pre c cs he)]
      have h2 := ih (pre ++ [collapseCard c])
      simp only [List.length_append, List.length_singleton, List.append_assoc,
        List.singleton_append] at h2
      rw [h2]
      simp [he]
    · rw [escapeLoop_cons_eq (pre ++ c :: cs)
        (by simp only [hg]
            rw [if_neg he])]
      have h2 := ih (pre ++ [c])
      simp only [List.length_append, List.length_singleton, List.append_assoc,
        List.singleton_append] at h2
      rw [h2]
      simp [he]

/-- The Escape handler collapses exactly the currently expanded cards. -/
theorem escapeKeydown_eq (cards : List Card) :
    escapeKeydown cards =
      cards.map (fun c => if c.ariaExpanded then collapseCard c else c) := by
  unfold escapeKeydown
  have h0 := escapeLoop_go cards []
  simp only [List.length_nil, List.nil_append] at h0
  rw [List.range_eq_range', h0]

theorem processCard_some_of_attr (sel : String) {c : Card} {attr : String}
    (ha : c.participantsAttr = some attr) :
    ∃ c', processCard sel c = some c' := by
  unfold processCard
  simp only [ha]
  by_cases hm : sel = "" ∨ sel ∈ splitTrim attr
  · exact ⟨_, by rw [if_pos hm]⟩
  · by_cases he : c.ariaExpanded
    · exact ⟨_, by rw [if_neg hm, if_pos he]⟩
    · exact ⟨_, by rw [if_neg hm, if_neg he]⟩

theorem filterChip_highlight (sel : String) (ch : Chip) :
    ((filterChip sel ch).highlightedCls = true ↔
      (sel ≠ "" ∧ jsTrim ch.text = sel)) ∧
    (filterChip sel ch).text = ch.text := by
  unfold filterChip
  by_cases hc : sel ≠ "" ∧ jsTrim ch.text = sel
  · rw [if_pos hc]
    simpa using hc
  · rw [if_neg hc]
    simpa using hc

/-! ## Example pages used to instantiate the theorems -/

/-- Two-card page: "Ana, Beto" and "Carla". -/
def exCards : List Card :=
  [initCard ⟨some "Ana, Beto", some "v1", "T1"⟩,
   initCard ⟨some "Carla", some "v2", "T2"⟩]

def exG : GalleryState :=
  { cards := exCards, emptyStateHidden := true, filterValue := "" }

/-- `exG` after `filterVideos("Ana")`. -/
def exGAna : GalleryState :=
  { cards := [initCard ⟨some "Ana, Beto", some "v1", "T1"⟩,
              { initCard ⟨some "Carla", some "v2", "T2"⟩ with hidden := true }],
    emptyStateHidden := true, filterValue := "" }

/-! ## C1 -/

/-- C1: for every call `filterVideos(selection)` that completes, a card is
visible (not hidden) after the call iff the selection is empty or the
card's comma-split, trimmed participant list contains the selection
exactly; and every card made invisible that was expanded at call time is
collapsed by the call (`aria-expanded` cleared, embed container hidden,
expansion marker removed). -/
theorem filterVideos_visibility_correct
    (sel : String) (g g' : GalleryState) (h : filterVideos sel g = some g')
    (i : Nat) (c : Card) (attr : String)
    (hc : g.cards[i]? = some c) (ha : c.participantsAttr = some attr) :
    ∃ c', g'.cards[i]? = some c' ∧
      (c'.hidden = false ↔ (sel = "" ∨ sel ∈ splitTrim attr)) ∧
      (c'.hidden = true → c.ariaExpanded = true →
        c'.ariaExpanded = false ∧ c'.embedHidden = true ∧
          c'.dataExpanded = false) := by
  rw [filterVideos_eq] at h
  cases hpa : processAll sel g.cards <;> rw [hpa] at h
  · exact Option.noConfusion h
  · rename_i cs
    simp only [Option.map_some', Option.some.injEq] at h
    subst h
    have hget := processAll_getElem sel g.cards cs hpa i c hc
    obtain ⟨c', hc'⟩ := processCard_some_of_attr sel ha
    refine ⟨c', by rw [hget, hc'], processCard_hidden_iff ha hc', ?_⟩
    intro hh he
    rcases processCard_cases hc' with h1 | ⟨h1, _⟩ | ⟨h1, he'⟩
    · rw [h1] at hh
      simp at hh
    · rw [h1]
      simp [collapseCard]
    · rw [he'] at he
      exact Bool.noConfusion he

theorem filterVideos_visibility_correct_witness :
    ∃ c', exGAna.cards[0]? = some c' ∧
      (c'.hidden = false ↔ ("Ana" = "" ∨ "Ana" ∈ splitTrim "Ana, Beto")) ∧
      (c'.hidden = true →
        (initCard ⟨some "Ana, Beto", some "v1", "T1"⟩).ariaExpanded = true →
        c'.ariaExpanded = false ∧ c'.embedHidden = true ∧
          c'.dataExpanded = false) :=
  filterVideos_visibility_correct "Ana" exG exGAna (by decide) 0
    (initCard ⟨some "Ana, Beto", some "v1", "T1"⟩) "Ana, Beto"
    (by decide) (by decide)

/-! ## C6 -/

/-- C6: after every completed `filterVideos` call, the shared empty-state
placeholder is shown (its `hidden` flag is `false`) iff no card is
visible. -/
theorem empty_state_iff_no_visible (sel : String) (g g' : GalleryState)
    (h : filterVideos sel g = some g') :
    g'.emptyStateHidden = false ↔ ∀ c' ∈ g'.cards, c'.hidden = true := by
  rw [filterVideos_eq] at h
  cases hpa : processAll sel g.cards <;> rw [hpa] at h
  · exact Option.noConfusion h
  · rename_i cs
    simp only [Option.map_some', Option.some.injEq] at h
    subst h
    show (if g.cards.countP (matchesB sel) = 0 then false else true) = false ↔
      ∀ c' ∈ cs, c'.hidden = true
    constructor
    · intro hes c' hc'
      have hcnt : g.cards.countP (matchesB sel) = 0 := by
        by_cases hcnt : g.cards.countP (matchesB sel) = 0
        · exact hcnt
        · rw [if_neg hcnt] at hes
          exact Bool.noConfusion hes
      obtain ⟨c, hcmem, hpc⟩ := processAll_mem sel g.cards cs hpa c' hc'
      have hmf : ¬ matchesB sel c = true :=
        List.countP_eq_zero.mp hcnt c hcmem
      have hiff := processCard_matchesB hpc
      cases hhid : c'.hidden
      · exact absurd (hiff.mp hhid) hmf
      · rfl
    · intro hall
      by_cases hcnt : g.cards.countP (matchesB sel) = 0
      · rw [if_pos hcnt]
      · exfalso
        obtain ⟨c, hcmem, hm⟩ :=
          List.countP_pos_iff.mp (Nat.pos_of_ne_zero hcnt)
        obtain ⟨i, hci⟩ := List.getElem?_of_mem hcmem
        have hget := processAll_getElem sel g.cards cs hpa i c hci
        obtain ⟨attr, ha⟩ : ∃ attr, c.participantsAttr = some attr := by
          cases haa : c.participantsAttr
          · rw [matchesB, haa] at hm
            exact Bool.noConfusion hm
          · exact ⟨_, rfl⟩
        obtain ⟨c', hc'⟩ := processCard_some_of_attr sel ha
        have hmem' : c' ∈ cs := by
          rw [hc'] at hget
          exact List.mem_iff_getElem?.mpr ⟨i, hget⟩
        have hvis : c'.hidden = false := (processCard_matchesB hc').mpr hm
        rw [hall c' hmem'] at hvis
        exact Bool.noConfusion hvis

theorem empty_state_iff_no_visible_witness :
    exGAna.emptyStateHidden = false ↔ ∀ c' ∈ exGAna.cards, c'.hidden = true :=
  empty_state_iff_no_visible "Ana" exG exGAna (by decide)

/-! ## C8 -/

/-- C8: after `filterVideos("")` — also as invoked by `resetFilter()` —
every card is visible and every chip of every card has its highlight
removed. -/
theorem empty_filter_restoration (g g' : GalleryState)
    (h : filterVideos "" g = some g' ∨ resetFilter g = some g') :
    ∀ c' ∈ g'.cards, c'.hidden = false ∧
      ∀ ch ∈ c'.chips, ch.highlightedCls = false := by
  have hf : ∃ g0 : GalleryState, filterVideos "" g0 = some g' := by
    rcases h with h | h
    · exact ⟨g, h⟩
    · exact ⟨{ g with filterValue := "" }, h⟩
  obtain ⟨g0, hf⟩ := hf
  rw [filterVideos_eq] at hf
  cases hpa : processAll "" g0.cards <;> rw [hpa] at hf
  · exact Option.noConfusion hf
  · rename_i cs
    simp only [Option.map_some', Option.some.injEq] at hf
    subst hf
    intro c' hc'
    obtain ⟨c, hcmem, hpc⟩ := processAll_mem "" g0.cards cs hpa c' hc'
    obtain ⟨attr, ha⟩ := processCard_attr_some hpc
    have hvis : c'.hidden = false :=
      (processCard_hidden_iff ha hpc).mpr (Or.inl rfl)
    rcases processCard_cases hpc with h1 | ⟨h1, _⟩ | ⟨h1, _⟩
    · subst h1
      refine ⟨rfl, ?_⟩
      intro ch hch
      simp only [List.mem_map] at hch
      obtain ⟨ch0, _, rfl⟩ := hch
      unfold filterChip
      rw [if_neg (by simp)]
    · rw [h1] at hvis
      exact absurd hvis (by simp [collapseCard])
    · rw [h1] at hvis
      exact absurd hvis (by simp)

theorem empty_filter_restoration_witness :
    (initCard ⟨some "Ana, Beto", some "v1", "T1"⟩).hidden = false ∧
      ∀ ch ∈ (initCard ⟨some "Ana, Beto", some "v1", "T1"⟩).chips,
        ch.highlightedCls = false :=
  empty_filter_restoration exGAna exG (Or.inl (by decide))
    (initCard ⟨some "Ana, Beto", some "v1", "T1"⟩) (by decide)

/-! ## C9 -/

/-- C9: on a card set where some card lacks the participant-list attribute,
`collectParticipants` — and likewise `filterVideos` — produces no value:
the operation ends in the unhandled fault (modelled by `none`), not a
structured result and not a fallback such as treating the card as having
no participants. -/
theorem missing_participants_fault (cards : List Card)
    (h : ∃ c ∈ cards, c.participantsAttr = none) :
    collectParticipants cards = none ∧
      ∀ (sel : String) (es : Bool) (fv : String),
        filterVideos sel ⟨cards, es, fv⟩ = none := by
  constructor
  · unfold collectParticipants
    rw [collectSet_none_of_missing cards [] h]
    rfl
  · intro sel es fv
    rw [filterVideos_eq, processAll_none_of_missing sel cards h]
    rfl

theorem missing_participants_fault_witness :
    collectParticipants [initCard ⟨none, some "v9", "T9"⟩] = none ∧
      ∀ (sel : String) (es : Bool) (fv : String),
        filterVideos sel ⟨[initCard ⟨none, some "v9", "T9"⟩], es, fv⟩ = none :=
  missing_participants_fault [initCard ⟨none, some "v9", "T9"⟩]
    ⟨initCard ⟨none, some "v9", "T9"⟩, by decide, by decide⟩

/-! ## C3 -/

instance : IsTrans String (fun a b => localeLe a b = true) :=
  ⟨localeLe_trans⟩

instance : IsTotal String (fun a b => localeLe a b = true) :=
  ⟨fun a b => by simpa [Bool.or_eq_true] using localeLe_total a b⟩

/-- The two cards of the C3 example: participant attributes
`"beto, Ana"` and `"ana"`. -/
def exC3Cards : List Card :=
  [initCard ⟨some "beto, Ana", some "v1", "T1"⟩,
   initCard ⟨some "ana", some "v2", "T2"⟩]

/-- C3 counterexample: on the claim's own example inputs the code returns
`["Ana", "ana", "beto"]`, not `["Ana", "Beto"]` — the `Set` deduplicates by
exact string equality (so the base-insensitive equals `"Ana"`/`"ana"` both
survive, in stable order), and element strings are returned verbatim
(`"beto"` is never capitalized). -/
theorem collect_directory_claim_counterexample :
    collectParticipants exC3Cards = some ["Ana", "ana", "beto"] ∧
      collectParticipants exC3Cards ≠ some ["Ana", "Beto"] := by
  constructor
  · decide
  · decide

/-- C3 amended: `collectParticipants()` returns exactly the union of all
cards' comma-split, trimmed participant names, deduplicated by exact
string equality, in an order sorted by the locale-aware case-insensitive
Spanish collation (stable, so base-equal strings keep insertion order); on
inputs `{"beto, Ana"}`, `{"ana"}` it returns `["Ana", "ana", "beto"]` (the
collation does not collapse `"ana"`/`"Ana"` into one entry, because the
`Set` deduplication is exact). -/
theorem collectParticipants_directory_amended (cards : List Card)
    (l : List String) (h : collectParticipants cards = some l) :
    (∀ s, s ∈ l ↔ ∃ c ∈ cards, ∃ attr, c.participantsAttr = some attr ∧
        s ∈ splitTrim attr) ∧
    l.Nodup ∧
    l.Pairwise (fun a b => localeLe a b = true) ∧
    collectParticipants exC3Cards = some ["Ana", "ana", "beto"] := by
  unfold collectParticipants at h
  cases hcs : collectSet cards [] <;> rw [hcs] at h
  · exact Option.noConfusion h
  · rename_i set
    simp only [Option.map_some', Option.some.injEq] at h
    subst h
    refine ⟨?_, ?_, ?_, by decide⟩
    · intro s
      rw [List.mem_insertionSort, collectSet_mem cards [] set hcs s]
      simp only [List.not_mem_nil, false_or]
      constructor
      · rintro ⟨c, hc, attr, ha, p, hp, rfl⟩
        exact ⟨c, hc, attr, ha, List.mem_map.mpr ⟨p, hp, rfl⟩⟩
      · rintro ⟨c, hc, attr, ha, hs⟩
        obtain ⟨p, hp, hpe⟩ := List.mem_map.mp hs
        exact ⟨c, hc, attr, ha, p, hp, hpe⟩
    · exact (List.perm_insertionSort _ set).symm.nodup
        (collectSet_nodup cards [] set (by simp) hcs)
    · exact List.sorted_insertionSort _ set

theorem collectParticipants_directory_amended_witness :
    (["Ana", "ana", "beto"] : List String).Nodup ∧
      (["Ana", "ana", "beto"] : List String).Pairwise
        (fun a b => localeLe a b = true) :=
  ⟨(collectParticipants_directory_amended exC3Cards ["Ana", "ana", "beto"]
      (by decide)).2.1,
   (collectParticipants_directory_amended exC3Cards ["Ana", "ana", "beto"]
      (by decide)).2.2.1⟩

/-! ## C7 -/

/-- C7: pressing Escape when no card is expanded leaves the whole gallery
state unchanged; pressing it when exactly one card is expanded collapses
exactly that card and leaves every other card untouched. -/
theorem escape_idempotence (g : GalleryState) :
    ((∀ c ∈ g.cards, c.ariaExpanded = false) →
      { g with cards := escapeKeydown g.cards } = g) ∧
    (∀ (i : Nat) (c : Card), g.cards[i]? = some c → c.ariaExpanded = true →
      (∀ (j : Nat) (d : Card), j ≠ i → g.cards[j]? = some d →
        d.ariaExpanded = false) →
      (escapeKeydown g.cards)[i]? = some (collapseCard c) ∧
        ∀ (j : Nat), j ≠ i → (escapeKeydown g.cards)[j]? = g.cards[j]?) := by
  constructor
  · intro hall
    have hmap : g.cards.map
        (fun c => if c.ariaExpanded then collapseCard c else c) =
        g.cards.map id :=
      List.map_congr_left (fun c hc => by rw [hall c hc]; simp)
    rw [escapeKeydown_eq, hmap, List.map_id]
  · intro i c hc he hother
    constructor
    · rw [escapeKeydown_eq, List.getElem?_map, hc]
      simp [he]
    · intro j hj
      rw [escapeKeydown_eq, List.getElem?_map]
      cases hd : g.cards[j]? with
      | none => rfl
      | some d =>
        have hdf := hother j d hj hd
        simp [hdf]

theorem escape_idempotence_witness :
    { exG with cards := escapeKeydown exG.cards } = exG :=
  (escape_idempotence exG).1 (by decide)

/-! ## C10 -/

/-- C10: a card that starts collapsed with an empty player container,
toggled twice, ends collapsed exactly as an explicit collapse leaves it:
`aria-expanded` is false, the embed container is hidden, the
`data-expanded` marker is absent, and the iframe created by the
intervening expansion is gone. -/
theorem toggle_twice_collapse (cards : List Card) (i : Nat) (c : Card)
    (hc : cards[i]? = some c) (he : c.ariaExpanded = false)
    (hifr : c.iframes = []) :
    ∃ c', (toggleVideoCard (toggleVideoCard cards i) i)[i]? = some c' ∧
      c'.ariaExpanded = false ∧ c'.embedHidden = true ∧
      c'.dataExpanded = false ∧ c'.iframes = [] := by
  have hlen : i < cards.length := by
    rcases List.getElem?_eq_some_iff.mp hc with ⟨hl, _⟩
    exact hl
  rw [toggleVideoCard_of_collapsed hc he]
  have h1 : ((collapseOthers i 0 cards).set i (expandCard c))[i]? =
      some (expandCard c) :=
    List.getElem?_set_self (by rw [length_collapseOthers]; exact hlen)
  have hexp : (expandCard c).ariaExpanded = true := rfl
  rw [toggleVideoCard_of_expanded h1 hexp]
  refine ⟨collapseCard (expandCard c),
    List.getElem?_set_self (by
      rw [List.length_set, length_collapseOthers]
      exact hlen),
    rfl, rfl, rfl, ?_⟩
  show ((expandCard c).iframes).tail = []
  simp [expandCard, loadYouTubeEmbed, hifr]

theorem toggle_twice_collapse_witness :
    ∃ c', (toggleVideoCard (toggleVideoCard exCards 0) 0)[0]? = some c' ∧
      c'.ariaExpanded = false ∧ c'.embedHidden = true ∧
      c'.dataExpanded = false ∧ c'.iframes = [] :=
  toggle_twice_collapse exCards 0
    (initCard ⟨some "Ana, Beto", some "v1", "T1"⟩)
    (by decide) (by decide) (by decide)

/-! ## C5 -/

/-- The six-participant card of the C5 scenario. -/
def exC5Card : Card :=
  initCard ⟨some "Ana, Beto, Carla, David, Elena, Fabio", some "v5", "T5"⟩

/-- `exC5Card` after `generateChips`. -/
def exC5Gen : Card := (generateChips exC5Card).getD exC5Card

/-- `exC5Gen` after one `toggleChips` (chips revealed). -/
def exC5Open : Card := (toggleChips exC5Gen).getD exC5Card

/-- `exC5Open` after another `toggleChips` (chips re-hidden). -/
def exC5Closed : Card := (toggleChips exC5Open).getD exC5Card

/-- `exC5Open` with its participant attribute grown to eight names, then
collapsed — showing the hidden count is re-derived, not cached. -/
def exC5Re : Card :=
  (toggleChips { exC5Open with
    participantsAttr := some "a,b,c,d,e,f,g,h" }).getD exC5Card

/-- C5, evaluated at the failing input: a card with six participants gets
exactly 4 visible and 2 hidden chips and one expand control — but the
control's label is the source file's literal `"+2 m치s"` (a mis-encoded
`"+2 más"`), not `"+2 más"` as the claim states.  Activating the control
flips the label to `"Ver menos"` and reveals all six chips; activating it
again restores the `"+2 m치s"` label and hides the same two chips; and the
hidden count is re-derived from the card's current participant list (with
eight names the re-rendered label is `"+4 m치s"`). -/
theorem chip_overflow_behavior :
    generateChips exC5Card = some exC5Gen ∧
    exC5Gen.chips.length = 6 ∧
    exC5Gen.chips.countP (fun ch => !ch.hiddenCls) = 4 ∧
    exC5Gen.chips.countP (fun ch => ch.hiddenCls) = 2 ∧
    exC5Gen.expandBtn.map (fun b => b.label) = some "+2 m치s" ∧
    "+2 m치s" ≠ "+2 más" ∧
    toggleChips exC5Gen = some exC5Open ∧
    exC5Open.expandBtn.map (fun b => b.label) = some "Ver menos" ∧
    exC5Open.chips.countP (fun ch => !ch.hiddenCls) = 6 ∧
    toggleChips exC5Open = some exC5Closed ∧
    exC5Closed.expandBtn.map (fun b => b.label) = some "+2 m치s" ∧
    exC5Closed.chips.map (fun ch => (ch.text, ch.hiddenCls)) =
      exC5Gen.chips.map (fun ch => (ch.text, ch.hiddenCls)) ∧
    toggleChips { exC5Open with
        participantsAttr := some "a,b,c,d,e,f,g,h" } = some exC5Re ∧
    exC5Re.expandBtn.map (fun b => b.label) = some "+4 m치s" := by
  decide

/-! ## Reachability invariants -/

/-- Per-card embed invariant: a collapsed card has no iframe, and no card
ever accumulates more than one iframe. -/
def cardMutexInv (c : Card) : Prop :=
  (c.ariaExpanded = false → c.iframes = []) ∧ c.iframes.length ≤ 1

/-- At most one card is expanded. -/
def atMostOneExpanded (cards : List Card) : Prop :=
  ∀ (i j : Nat) (ci cj : Card), i ≠ j → cards[i]? = some ci →
    cards[j]? = some cj → ci.ariaExpanded = true → cj.ariaExpanded = false

/-- The C2 invariant over a whole page state. -/
def mutexInv (g : GalleryState) : Prop :=
  atMostOneExpanded g.cards ∧ ∀ c ∈ g.cards, cardMutexInv c

theorem cardMutexInv_collapse {c : Card} (h : cardMutexInv c) :
    cardMutexInv (collapseCard c) := by
  obtain ⟨_, h2⟩ := h
  constructor
  · intro _
    show c.iframes.tail = []
    cases hi : c.iframes with
    | nil => rfl
    | cons a l =>
      rw [hi] at h2
      simp only [List.length_cons] at h2
      have hl : l.length = 0 := by omega
      simp [List.eq_nil_of_length_eq_zero hl]
  · show c.iframes.tail.length ≤ 1
    rw [List.length_tail]
    omega

theorem snd_mem_of_mem_enumFrom {α : Type _} :
    ∀ {l : List α} {n : Nat} {p : Nat × α}, p ∈ l.enumFrom n → p.2 ∈ l := by
  intro l
  induction l with
  | nil => intro n p h; simp [List.enumFrom] at h
  | cons a t ih =>
    intro n p h
    rw [show (a :: t).enumFrom n = (n, a) :: t.enumFrom (n + 1) from rfl] at h
    rcases List.mem_cons.mp h with rfl | h
    · exact List.mem_cons_self a t
    · exact List.mem_cons_of_mem a (ih h)

theorem snd_mem_of_mem_enum {α : Type _} {l : List α} {p : Nat × α}
    (h : p ∈ l.enum) : p.2 ∈ l :=
  snd_mem_of_mem_enumFrom h

/-- `generateChips` rewrites only the chip container and the expand
button; every generated chip is unhighlighted. -/
theorem generateChips_fields {c c' : Card} (h : generateChips c = some c') :
    c'.ariaExpanded = c.ariaExpanded ∧ c'.iframes = c.iframes ∧
    c'.hidden = c.hidden ∧ c'.embedHidden = c.embedHidden ∧
    c'.dataExpanded = c.dataExpanded ∧
    ∀ ch ∈ c'.chips, ch.highlightedCls = false := by
  unfold generateChips at h
  cases ha : c.participantsAttr with
  | none => simp only [ha] at h; exact Option.noConfusion h
  | some attr =>
    simp only [ha] at h
    cases h
    refine ⟨rfl, rfl, rfl, rfl, rfl, ?_⟩
    intro ch hch
    simp only [List.mem_map] at hch
    obtain ⟨p, _, rfl⟩ := hch
    rfl

/-- `toggleChips` rewrites only the chip classes and the expand button;
each chip keeps its text and highlight state, and the card's other fields
are untouched. -/
theorem toggleChips_fields {c c' : Card} (h : toggleChips c = some c') :
    c'.ariaExpanded = c.ariaExpanded ∧ c'.iframes = c.iframes ∧
    c'.hidden = c.hidden ∧ c'.embedHidden = c.embedHidden ∧
    c'.dataExpanded = c.dataExpanded ∧
    ∀ ch' ∈ c'.chips, ∃ ch ∈ c.chips,
      ch'.highlightedCls = ch.highlightedCls ∧ ch'.text = ch.text := by
  unfold toggleChips at h
  cases hb : c.expandBtn with
  | none => simp only [hb] at h; exact Option.noConfusion h
  | some btn =>
    cases ha : c.participantsAttr with
    | none => simp only [hb, ha] at h; exact Option.noConfusion h
    | some attr =>
      simp only [hb, ha] at h
      by_cases hbe : btn.ariaExpanded = true
      · rw [if_pos hbe] at h
        cases h
        refine ⟨rfl, rfl, rfl, rfl, rfl, ?_⟩
        intro ch' hch'
        simp only [List.mem_map] at hch'
        obtain ⟨p, hp, rfl⟩ := hch'
        refine ⟨p.2, snd_mem_of_mem_enum hp, ?_⟩
        by_cases hge : p.1 ≥ MAX_VISIBLE_CHIPS <;> simp [hge]
      · rw [if_neg hbe] at h
        cases h
        refine ⟨rfl, rfl, rfl, rfl, rfl, ?_⟩
        intro ch' hch'
        simp only [List.mem_map] at hch'
        obtain ⟨p, hp, rfl⟩ := hch'
        refine ⟨p.2, snd_mem_of_mem_enum hp, ?_⟩
        by_cases hge : p.1 ≥ MAX_VISIBLE_CHIPS <;> simp [hge]

/-- Every card of a `toggleVideoCard` result arises from a card of the
input either unchanged, collapsed, or expanded. -/
theorem toggleVideoCard_mem {cards : List Card} {i : Nat} :
    ∀ d' ∈ toggleVideoCard cards i, ∃ d ∈ cards,
      d' = d ∨ d' = collapseCard d ∨
        (d' = expandCard d ∧ d.ariaExpanded = false) := by
  intro d' hd'
  unfold toggleVideoCard at hd'
  cases hc : cards[i]? with
  | none =>
    simp only [hc] at hd'
    exact ⟨d', hd', Or.inl rfl⟩
  | some c =>
    simp only [hc] at hd'
    have hcm : c ∈ cards := List.mem_iff_getElem?.mpr ⟨i, hc⟩
    by_cases he : c.ariaExpanded = true
    · rw [if_pos he] at hd'
      rcases List.mem_or_eq_of_mem_set hd' with hd' | rfl
      · exact ⟨d', hd', Or.inl rfl⟩
      · exact ⟨c, hcm, Or.inr (Or.inl rfl)⟩
    · rw [if_neg he] at hd'
      rcases List.mem_or_eq_of_mem_set hd' with hd' | rfl
      · -- d' comes from collapseOthers
        obtain ⟨k, hk⟩ := List.getElem?_of_mem hd'
        rw [getElem?_collapseOthers] at hk
        cases hck : cards[k]? with
        | none => rw [hck] at hk; exact Option.noConfusion hk
        | some d =>
          rw [hck] at hk
          simp only [Option.map_some', Option.some.injEq] at hk
          have hdm : d ∈ cards := List.mem_iff_getElem?.mpr ⟨k, hck⟩
          by_cases hcond : 0 + k ≠ i ∧ d.ariaExpanded = true
          · rw [if_pos hcond] at hk
            exact ⟨d, hdm, Or.inr (Or.inl hk.symm)⟩
          · rw [if_neg hcond] at hk
            exact ⟨d, hdm, Or.inl hk.symm⟩
      · exact ⟨c, hcm, Or.inr (Or.inr ⟨rfl, by simpa using he⟩)⟩

theorem cardMutexInv_expand {d : Card} (h : cardMutexInv d)
    (he : d.ariaExpanded = false) : cardMutexInv (expandCard d) := by
  have hi : d.iframes = [] := h.1 he
  constructor
  · intro hfalse
    exact absurd hfalse (by simp [expandCard, loadYouTubeEmbed])
  · simp [expandCard, loadYouTubeEmbed, hi]

/-- Cards produced by `collapseOthers` at an index other than the pivot
are collapsed. -/
theorem collapseOthers_aria {cards : List Card} {i k : Nat} {d' : Card}
    (h : (collapseOthers i 0 cards)[k]? = some d') (hk : k ≠ i) :
    d'.ariaExpanded = false ∧
      ∃ d, cards[k]? = some d ∧ (d' = d ∨ d' = collapseCard d) := by
  rw [getElem?_collapseOthers] at h
  cases hc : cards[k]? with
  | none => rw [hc] at h; exact Option.noConfusion h
  | some d =>
    rw [hc] at h
    simp only [Option.map_some', Option.some.injEq, Nat.zero_add] at h
    subst h
    by_cases hda : d.ariaExpanded = true
    · rw [if_pos ⟨hk, hda⟩]
      exact ⟨rfl, d, rfl, Or.inr rfl⟩
    · rw [if_neg (fun hcon => hda hcon.2)]
      exact ⟨by simpa using hda, d, rfl, Or.inl rfl⟩

theorem toggleVideoCard_mutex {cards : List Card} (i : Nat)
    (hA : atMostOneExpanded cards) (hI : ∀ c ∈ cards, cardMutexInv c) :
    atMostOneExpanded (toggleVideoCard cards i) ∧
      ∀ c ∈ toggleVideoCard cards i, cardMutexInv c := by
  constructor
  · intro i' j' ci cj hij hci hcj hexp
    cases hc : cards[i]? with
    | none =>
      unfold toggleVideoCard at hci hcj
      rw [hc] at hci hcj
      exact hA i' j' ci cj hij hci hcj hexp
    | some c =>
      have hlen : i < cards.length := by
        obtain ⟨hl, _⟩ := List.getElem?_eq_some_iff.mp hc
        exact hl
      by_cases he : c.ariaExpanded = true
      · rw [toggleVideoCard_of_expanded hc he] at hci hcj
        by_cases hii : i' = i
        · subst hii
          rw [List.getElem?_set_self hlen] at hci
          cases hci
          exact absurd hexp (by simp [collapseCard])
        · rw [List.getElem?_set_ne (fun hh => hii hh.symm)] at hci
          by_cases hjj : j' = i
          · subst hjj
            rw [List.getElem?_set_self hlen] at hcj
            cases hcj
            rfl
          · rw [List.getElem?_set_ne (fun hh => hjj hh.symm)] at hcj
            exact hA i' j' ci cj hij hci hcj hexp
      · rw [toggleVideoCard_of_collapsed hc
          (by simpa using he)] at hci hcj
        have hlen' : i < (collapseOthers i 0 cards).length := by
          rw [length_collapseOthers]
          exact hlen
        by_cases hjj : j' = i
        · subst hjj
          -- then i' ≠ i, so ci comes from collapseOthers and is collapsed,
          -- contradicting hexp
          rw [List.getElem?_set_ne (fun hh => hij hh.symm)] at hci
          obtain ⟨hfa, -⟩ := collapseOthers_aria hci hij
          rw [hfa] at hexp
          exact Bool.noConfusion hexp
        · rw [List.getElem?_set_ne (fun hh => hjj hh.symm)] at hcj
          obtain ⟨hfa, -⟩ := collapseOthers_aria hcj hjj
          exact hfa
  · intro c' hc'
    obtain ⟨d, hdm, hcase⟩ := toggleVideoCard_mem c' hc'
    rcases hcase with heq | heq | ⟨heq, hda⟩
    · rw [heq]; exact hI _ hdm
    · rw [heq]; exact cardMutexInv_collapse (hI _ hdm)
    · rw [heq]; exact cardMutexInv_expand (hI _ hdm) hda

theorem escapeKeydown_mutex {cards : List Card}
    (hI : ∀ c ∈ cards, cardMutexInv c) :
    atMostOneExpanded (escapeKeydown cards) ∧
      ∀ c ∈ escapeKeydown cards, cardMutexInv c := by
  rw [escapeKeydown_eq]
  constructor
  · intro i j ci cj hij hci hcj hexp
    rw [List.getElem?_map] at hci
    cases hc : cards[i]? <;> rw [hc] at hci
    · exact Option.noConfusion hci
    · rename_i d
      simp only [Option.map_some', Option.some.injEq] at hci
      subst hci
      by_cases hda : d.ariaExpanded = true <;>
        simp [hda, collapseCard] at hexp
  · intro c' hc'
    obtain ⟨d, hdm, rfl⟩ := List.mem_map.mp hc'
    by_cases hda : d.ariaExpanded = true
    · rw [if_pos hda]
      exact cardMutexInv_collapse (hI d hdm)
    · rw [if_neg hda]
      exact hI d hdm

theorem processAll_getElem_rev {sel : String} {l l' : List Card}
    (h : processAll sel l = some l') {i : Nat} {c' : Card}
    (hi : l'[i]? = some c') :
    ∃ c, l[i]? = some c ∧ processCard sel c = some c' := by
  have hlen := processAll_length sel l l' h
  obtain ⟨hl, _⟩ := List.getElem?_eq_some_iff.mp hi
  rw [hlen] at hl
  cases hg : l[i]? with
  | none =>
    rw [List.getElem?_eq_none_iff] at hg
    omega
  | some c =>
    have := processAll_getElem sel l l' h i c hg
    rw [hi] at this
    exact ⟨c, rfl, this.symm⟩

theorem filterVideos_mutex {sel : String} {g0 g' : GalleryState}
    (hf : filterVideos sel g0 = some g')
    (hA : atMostOneExpanded g0.cards)
    (hI : ∀ c ∈ g0.cards, cardMutexInv c) :
    atMostOneExpanded g'.cards ∧ ∀ c ∈ g'.cards, cardMutexInv c := by
  rw [filterVideos_eq] at hf
  cases hpa : processAll sel g0.cards <;> rw [hpa] at hf
  · exact Option.noConfusion hf
  · rename_i cs
    simp only [Option.map_some', Option.some.injEq] at hf
    subst hf
    constructor
    · intro i j ci cj hij hci hcj hexp
      obtain ⟨c1, hc1, hp1⟩ := processAll_getElem_rev hpa hci
      obtain ⟨c2, hc2, hp2⟩ := processAll_getElem_rev hpa hcj
      have h1 : c1.ariaExpanded = true := by
        rcases processCard_cases hp1 with h1 | ⟨h1, he⟩ | ⟨h1, he⟩
        · rw [h1] at hexp
          simpa using hexp
        · exact he
        · rw [h1] at hexp
          simpa using hexp
      have hc2aria : c2.ariaExpanded = false := hA i j c1 c2 hij hc1 hc2 h1
      rcases processCard_cases hp2 with h2 | ⟨h2, he⟩ | ⟨h2, he⟩
      · rw [h2]
        simpa using hc2aria
      · rw [h2]
        rfl
      · rw [h2]
        simpa using hc2aria
    · intro c' hc'
      obtain ⟨c, hcm, hpc⟩ := processAll_mem sel g0.cards cs hpa c' hc'
      rcases processCard_cases hpc with h1 | ⟨h1, _⟩ | ⟨h1, _⟩ <;> subst h1
      · exact hI c hcm
      · exact cardMutexInv_collapse (show cardMutexInv { c with hidden := true }
          from hI c hcm)
      · exact hI c hcm

theorem atMostOne_set_of_aria {cards : List Card} {i : Nat} {c c' : Card}
    (hc : cards[i]? = some c) (haria : c'.ariaExpanded = c.ariaExpanded)
    (hA : atMostOneExpanded cards) : atMostOneExpanded (cards.set i c') := by
  have hlen : i < cards.length := by
    obtain ⟨hl, _⟩ := List.getElem?_eq_some_iff.mp hc
    exact hl
  intro i' j' ci cj hij hci hcj hexp
  by_cases hii : i' = i
  · subst hii
    rw [List.getElem?_set_self hlen] at hci
    cases hci
    rw [haria] at hexp
    by_cases hjj : j' = i'
    · exact absurd hjj.symm hij
    · rw [List.getElem?_set_ne (fun hh => hjj hh.symm)] at hcj
      exact hA i' j' c cj hij hc hcj hexp
  · rw [List.getElem?_set_ne (fun hh => hii hh.symm)] at hci
    by_cases hjj : j' = i
    · subst hjj
      rw [List.getElem?_set_self hlen] at hcj
      cases hcj
      rw [haria]
      exact hA i' j' ci c hij hci hc hexp
    · rw [List.getElem?_set_ne (fun hh => hjj hh.symm)] at hcj
      exact hA i' j' ci cj hij hci hcj hexp

theorem genAll_mem :
    ∀ (l l' : List Card), genAll l = some l' →
      ∀ c' ∈ l', ∃ c ∈ l, generateChips c = some c' := by
  intro l
  induction l with
  | nil =>
    intro l' h c' hc'
    simp only [genAll, Option.some.injEq] at h
    subst h
    simp at hc'
  | cons d cs ih =>
    intro l' h c' hc'
    unfold genAll at h
    cases hpc : generateChips d <;> rw [hpc] at h
    · exact absurd h (by simp)
    · cases hpa : genAll cs <;> rw [hpa] at h
      · exact absurd h (by simp)
      · rename_i d' cs'
        simp only [Option.some.injEq] at h
        subst h
        rcases List.mem_cons.mp hc' with rfl | hc'
        · exact ⟨d, by simp, hpc⟩
        · obtain ⟨c, hc, hcc⟩ := ih _ hpa c' hc'
          exact ⟨c, by simp [hc], hcc⟩

theorem initState_mutex {specs : List CardSpec} {es : Bool} {g : GalleryState}
    (h : initState specs es = some g) : mutexInv g := by
  unfold initState at h
  cases hg : genAll (specs.map initCard) <;> rw [hg] at h
  · exact Option.noConfusion h
  · rename_i cards
    simp only [Option.map_some', Option.some.injEq] at h
    subst h
    constructor
    · intro i j ci cj hij hci hcj hexp
      obtain ⟨c0, hc0, hgen⟩ := genAll_mem _ _ hg ci
        (List.mem_iff_getElem?.mpr ⟨i, hci⟩)
      obtain ⟨s, _, rfl⟩ := List.mem_map.mp hc0
      have ha := (generateChips_fields hgen).1
      rw [hexp] at ha
      exact absurd ha.symm (by simp [initCard])
    · intro c' hc'
      obtain ⟨c0, hc0, hgen⟩ := genAll_mem _ _ hg c' hc'
      obtain ⟨s, _, rfl⟩ := List.mem_map.mp hc0
      have hf := generateChips_fields hgen
      constructor
      · intro _
        rw [hf.2.1]
        rfl
      · rw [hf.2.1]
        simp [initCard]

theorem userStep_mutex {g g' : GalleryState} (hs : UserStep g g')
    (h : mutexInv g) : mutexInv g' := by
  obtain ⟨hA, hI⟩ := h
  cases hs with
  | card_toggle i => exact toggleVideoCard_mutex i hA hI
  | filter_change g2 sel hf => exact filterVideos_mutex hf hA hI
  | filter_reset g2 hr =>
    unfold resetFilter at hr
    exact filterVideos_mutex hr hA hI
  | escape => exact escapeKeydown_mutex hI
  | chips_toggle i c c' hc ht =>
    have hf := toggleChips_fields ht
    refine ⟨atMostOne_set_of_aria hc hf.1 hA, ?_⟩
    intro d hd
    rcases List.mem_or_eq_of_mem_set hd with hd | rfl
    · exact hI d hd
    · have hci := hI c (List.mem_iff_getElem?.mpr ⟨i, hc⟩)
      constructor
      · intro hfa
        rw [hf.1] at hfa
        rw [hf.2.1]
        exact hci.1 hfa
      · rw [hf.2.1]
        exact hci.2

theorem reachable_mutex {g : GalleryState} (h : Reachable g) : mutexInv g := by
  induction h with
  | init specs es g hi => exact initState_mutex hi
  | step g g' hg hs ih => exact userStep_mutex hs ih

/-! ## C2 -/

/-- C2: in every reachable state at most one card is expanded, and before
a card is expanded every other expanded card is first collapsed with the
same side effects as an explicit collapse — so expanding card B (at `i`)
while card A (at `j`) is expanded leaves A collapsed with its player
iframe removed and B expanded with its player iframe present. -/
theorem expansion_mutual_exclusion (g : GalleryState) (hg : Reachable g) :
    atMostOneExpanded g.cards ∧
    (∀ (i j : Nat) (ci cj : Card), i ≠ j →
      g.cards[i]? = some ci → g.cards[j]? = some cj →
      ci.ariaExpanded = false → cj.ariaExpanded = true →
      ∃ ci' cj',
        (toggleVideoCard g.cards i)[i]? = some ci' ∧
        (toggleVideoCard g.cards i)[j]? = some cj' ∧
        ci'.ariaExpanded = true ∧ ci'.embedHidden = false ∧
        ci'.dataExpanded = true ∧ ci'.iframes.length = 1 ∧
        cj' = collapseCard cj ∧ cj'.ariaExpanded = false ∧
        cj'.embedHidden = true ∧ cj'.dataExpanded = false ∧
        cj'.iframes = [] ∧
        (∀ (k : Nat) (d : Card), k ≠ i →
          (toggleVideoCard g.cards i)[k]? = some d →
          d.ariaExpanded = false)) := by
  obtain ⟨hA, hI⟩ := reachable_mutex hg
  refine ⟨hA, ?_⟩
  intro i j ci cj hij hci hcj hi hj
  have hlen : i < g.cards.length := by
    obtain ⟨hl, _⟩ := List.getElem?_eq_some_iff.mp hci
    exact hl
  rw [toggleVideoCard_of_collapsed hci hi]
  have hlen' : i < (collapseOthers i 0 g.cards).length := by
    rw [length_collapseOthers]
    exact hlen
  have hIci := hI ci (List.mem_iff_getElem?.mpr ⟨i, hci⟩)
  have hIcj := hI cj (List.mem_iff_getElem?.mpr ⟨j, hcj⟩)
  have hcifr : ci.iframes = [] := hIci.1 hi
  refine ⟨expandCard ci, collapseCard cj, List.getElem?_set_self hlen',
    ?_, rfl, rfl, rfl, ?_, rfl, rfl, rfl, rfl, ?_, ?_⟩
  · rw [List.getElem?_set_ne hij, getElem?_collapseOthers, hcj]
    simp only [Option.map_some', Nat.zero_add]
    rw [if_pos ⟨fun hh => hij hh.symm, hj⟩]
  · show ((expandCard ci).iframes).length = 1
    simp [expandCard, loadYouTubeEmbed, hcifr]
  · show cj.iframes.tail = []
    have h2 := hIcj.2
    cases hfi : cj.iframes with
    | nil => rfl
    | cons a l =>
      rw [hfi] at h2
      simp only [List.length_cons] at h2
      have hl0 : l.length = 0 := by omega
      simp [List.eq_nil_of_length_eq_zero hl0]
  · intro k d hk hd
    rw [List.getElem?_set_ne (fun hh => hk hh.symm)] at hd
    exact (collapseOthers_aria hd hk).1

/-- Markup for the C2 witness page. -/
def exSpecsW : List CardSpec :=
  [⟨some "Ana, Beto", some "v1", "T1"⟩, ⟨some "Carla", some "v2", "T2"⟩]

/-- The C2 witness page right after initialization. -/
def exInitG : GalleryState :=
  (initState exSpecsW true).getD
    { cards := [], emptyStateHidden := true, filterValue := "" }

/-- The C2 witness page after expanding card 1. -/
def exGExp : GalleryState :=
  { exInitG with cards := toggleVideoCard exInitG.cards 1 }

def exCardW0 : Card := (exGExp.cards[0]?).getD (initCard ⟨none, none, ""⟩)

def exCardW1 : Card := (exGExp.cards[1]?).getD (initCard ⟨none, none, ""⟩)

theorem expansion_mutual_exclusion_witness :
    ∃ ci' cj',
      (toggleVideoCard exGExp.cards 0)[0]? = some ci' ∧
      (toggleVideoCard exGExp.cards 0)[1]? = some cj' ∧
      ci'.ariaExpanded = true ∧ ci'.embedHidden = false ∧
      ci'.dataExpanded = true ∧ ci'.iframes.length = 1 ∧
      cj' = collapseCard exCardW1 ∧ cj'.ariaExpanded = false ∧
      cj'.embedHidden = true ∧ cj'.dataExpanded = false ∧
      cj'.iframes = [] ∧
      (∀ (k : Nat) (d : Card), k ≠ 0 →
        (toggleVideoCard exGExp.cards 0)[k]? = some d →
        d.ariaExpanded = false) :=
  (expansion_mutual_exclusion exGExp
      (Reachable.step _ _ (Reachable.init exSpecsW true exInitG (by decide))
        (UserStep.card_toggle exInitG 1))).2
    0 1 exCardW0 exCardW1 (by decide) (by decide) (by decide)
    (by decide) (by decide)

/-! ## The chip-highlight invariant (C4) -/

/-- Chip highlights agree with the current filter selection on every
visible card. -/
def chipHighlightInv (g : GalleryState) : Prop :=
  ∀ c ∈ g.cards, c.hidden = false → ∀ ch ∈ c.chips,
    (ch.highlightedCls = true ↔
      (g.filterValue ≠ "" ∧ jsTrim ch.text = g.filterValue))

theorem filterVideos_chipInv {sel : String} {g0 g' : GalleryState}
    (hf : filterVideos sel g0 = some g') (hsel : g0.filterValue = sel) :
    chipHighlightInv g' := by
  rw [filterVideos_eq] at hf
  cases hpa : processAll sel g0.cards <;> rw [hpa] at hf
  · exact Option.noConfusion hf
  · rename_i cs
    simp only [Option.map_some', Option.some.injEq] at hf
    subst hf
    intro c' hc' hh ch hch
    show ch.highlightedCls = true ↔
      (g0.filterValue ≠ "" ∧ jsTrim ch.text = g0.filterValue)
    rw [hsel]
    obtain ⟨c, hcm, hpc⟩ := processAll_mem sel g0.cards cs hpa c' hc'
    rcases processCard_cases hpc with h1 | ⟨h1, _⟩ | ⟨h1, _⟩
    · rw [h1] at hch
      have hch' : ch ∈ c.chips.map (filterChip sel) := hch
      obtain ⟨ch0, _, rfl⟩ := List.mem_map.mp hch'
      rw [(filterChip_highlight sel ch0).2]
      exact (filterChip_highlight sel ch0).1
    · rw [h1] at hh
      exact absurd hh (by simp [collapseCard])
    · rw [h1] at hh
      exact absurd hh (by simp)

theorem initState_chipInv {specs : List CardSpec} {es : Bool}
    {g : GalleryState} (h : initState specs es = some g) :
    chipHighlightInv g := by
  unfold initState at h
  cases hg : genAll (specs.map initCard) <;> rw [hg] at h
  · exact Option.noConfusion h
  · rename_i cards
    simp only [Option.map_some', Option.some.injEq] at h
    subst h
    intro c' hc' hh ch hch
    obtain ⟨c0, hc0, hgen⟩ := genAll_mem _ _ hg c' hc'
    have hl := (generateChips_fields hgen).2.2.2.2.2 ch hch
    show ch.highlightedCls = true ↔
      (("" : String) ≠ "" ∧ jsTrim ch.text = "")
    rw [hl]
    simp

theorem userStep_chipInv {g g' : GalleryState} (hs : UserStep g g')
    (h : chipHighlightInv g) : chipHighlightInv g' := by
  cases hs with
  | card_toggle i =>
    intro c' hc' hh ch hch
    show ch.highlightedCls = true ↔
      (g.filterValue ≠ "" ∧ jsTrim ch.text = g.filterValue)
    obtain ⟨d, hdm, hcase⟩ := toggleVideoCard_mem c' hc'
    rcases hcase with heq | heq | ⟨heq, _⟩ <;> rw [heq] at hh hch
    · exact h d hdm hh ch hch
    · exact h d hdm hh ch hch
    · exact h d hdm hh ch hch
  | filter_change g2 sel hf => exact filterVideos_chipInv hf rfl
  | filter_reset g2 hr =>
    unfold resetFilter at hr
    exact filterVideos_chipInv hr rfl
  | escape =>
    intro c' hc' hh ch hch
    show ch.highlightedCls = true ↔
      (g.filterValue ≠ "" ∧ jsTrim ch.text = g.filterValue)
    have hc'' : c' ∈ escapeKeydown g.cards := hc'
    rw [escapeKeydown_eq] at hc''
    obtain ⟨d, hdm, heq⟩ := List.mem_map.mp hc''
    rw [← heq] at hh hch
    by_cases hda : d.ariaExpanded = true
    · rw [if_pos hda] at hh hch
      exact h d hdm hh ch hch
    · rw [if_neg hda] at hh hch
      exact h d hdm hh ch hch
  | chips_toggle i c c' hcg ht =>
    intro c'' hc'' hh ch' hch'
    show ch'.highlightedCls = true ↔
      (g.filterValue ≠ "" ∧ jsTrim ch'.text = g.filterValue)
    rcases List.mem_or_eq_of_mem_set hc'' with hmem | heq
    · exact h _ hmem hh ch' hch'
    · subst heq
      have hf := toggleChips_fields ht
      have hcm : c ∈ g.cards := List.mem_iff_getElem?.mpr ⟨i, hcg⟩
      have hcc : c.hidden = false := by rw [← hf.2.2.1]; exact hh
      obtain ⟨ch, hchm, hhl, htx⟩ := hf.2.2.2.2.2 ch' hch'
      rw [hhl, htx]
      exact h c hcm hcc ch hchm

theorem reachable_chipInv {g : GalleryState} (h : Reachable g) :
    chipHighlightInv g := by
  induction h with
  | init specs es g hi => exact initState_chipInv hi
  | step g g' hg hs ih => exact userStep_chipInv hs ih

/-! ## C4 -/

/-- Markup for the C4 example page: one card with participant "Ana", one
with "Beto". -/
def exC4Specs : List CardSpec :=
  [⟨some "Ana", some "v1", "V1"⟩, ⟨some "Beto", some "v2", "V2"⟩]

/-- The C4 page after initialization. -/
def exC4G0 : GalleryState :=
  (initState exC4Specs true).getD
    { cards := [], emptyStateHidden := true, filterValue := "" }

/-- The C4 page after the user selects "Ana" in the filter control. -/
def exC4G1 : GalleryState :=
  (filterVideos "Ana" { exC4G0 with filterValue := "Ana" }).getD exC4G0

/-- The C4 page after the user then selects "Beto". -/
def exC4G2 : GalleryState :=
  (filterVideos "Beto" { exC4G1 with filterValue := "Beto" }).getD exC4G0

/-- C4 counterexample: after filtering to "Ana" and then to "Beto" (both
legitimate dropdown choices), the now-hidden "Ana" card still carries its
highlighted "Ana" chip, although the active selection is "Beto" — so the
stated biconditional fails for chips of hidden cards (highlight is on
while the chip's text differs from the selection). -/
theorem chip_highlight_claim_counterexample :
    Reachable exC4G2 ∧
    (exC4G2.cards[0]?).map (fun c => c.hidden) = some true ∧
    ((exC4G2.cards[0]?).bind (fun c => c.chips[0]?)).map
      (fun ch => (ch.text, ch.highlightedCls)) = some ("Ana", true) ∧
    exC4G2.filterValue = "Beto" ∧
    jsTrim "Ana" ≠ "Beto" :=
  ⟨Reachable.step _ _ (Reachable.step _ _
      (Reachable.init exC4Specs true exC4G0 (by decide))
      (UserStep.filter_change exC4G0 exC4G1 "Ana" (by decide)))
      (UserStep.filter_change exC4G1 exC4G2 "Beto" (by decide)),
    by decide, by decide, by decide, by decide⟩

/-- C4 amended: in every state reachable by user interaction and
filtering, for every chip of every *visible* card, the chip is highlighted
iff a filter selection is active and the chip's trimmed text equals the
selection exactly.  (Hidden cards' chips are not updated by
`filterVideos` and may keep a stale highlight.) -/
theorem chip_highlight_visible_cards (g : GalleryState) (hg : Reachable g) :
    ∀ c ∈ g.cards, c.hidden = false → ∀ ch ∈ c.chips,
      (ch.highlightedCls = true ↔
        (g.filterValue ≠ "" ∧ jsTrim ch.text = g.filterValue)) :=
  reachable_chipInv hg

/-- The visible "Ana" card of `exC4G1`. -/
def exC4Card0 : Card := (exC4G1.cards[0]?).getD (initCard ⟨none, none, ""⟩)

/-- Its single chip. -/
def exC4Chip0 : Chip := (exC4Card0.chips[0]?).getD ⟨"", false, false, false⟩

theorem chip_highlight_visible_cards_witness :
    exC4Chip0.highlightedCls = true ↔
      (exC4G1.filterValue ≠ "" ∧ jsTrim exC4Chip0.text = exC4G1.filterValue) :=
  chip_highlight_visible_cards exC4G1
    (Reachable.step _ _ (Reachable.init exC4Specs true exC4G0 (by decide))
      (UserStep.filter_change exC4G0 exC4G1 "Ana" (by decide)))
    exC4Card0 (by decide) (by decide) exC4Chip0 (by decide)

end Gallery
